import Mathlib

/-!
Verification of the Petri-net based program-synthesis core
(`PS/component-based.py`): the net model (`execute_transition`,
`enabled_edges`, `add_edge`), the exact path finder (`find_paths`),
and the ant-colony search helpers (`calculate_transition_probabilities`,
`select_transition`, `construct_path`, `update_pheromone`,
`hamming_distance` and the best-path bookkeeping).

Python dicts are embedded as insertion-ordered association lists.
`alookup` is `d[k]` / `d.get(k)` (first matching key), `dset` is
`d[k] = v` (update in place if present, else append), `dmodify` is
`d[k] = f(d[k])` (`none` models the `KeyError` raised when the key is
absent).  Python ints are `Int`, Python floats are `ℚ` (exact arithmetic
in place of IEEE rounding).  A function that can raise returns `Option`
(`none` = exception).
-/

def alookup {β : Type} (d : List (String × β)) (k : String) : Option β :=
  match d with
  | [] => none
  | (k', v) :: rest => if k' = k then some v else alookup rest k

def dset {β : Type} (d : List (String × β)) (k : String) (v : β) : List (String × β) :=
  match d with
  | [] => [(k, v)]
  | (k', v') :: rest => if k' = k then (k, v) :: rest else (k', v') :: dset rest k v

def dmodify {β : Type} (d : List (String × β)) (k : String) (f : β → β) :
    Option (List (String × β)) :=
  match d with
  | [] => none
  | (k', v') :: rest =>
    if k' = k then some ((k', f v') :: rest)
    else (dmodify rest k f).map (fun r => (k', v') :: r)

/-- A marking: the Python dict mapping place names to token counts. -/
abbrev Marking := List (String × Int)

/-- The `PetriNet` class: `places` and `transitions` sets, and the
`edges` table `node → {destination → weight}`. -/
structure PetriNet where
  places : List String
  transitions : List String
  edges : List (String × List (String × Int))
deriving DecidableEq

/-- `PetriNet.add_edge`: raises `ValueError` (`none`) when `node1` is a
declared place and `node2` is not a declared transition, or `node1` is a
declared transition and `node2` is not a declared place; otherwise
records the edge (creating the inner dict if absent). -/
def add_edge (net : PetriNet) (node1 node2 : String) (weight : Int) : Option PetriNet :=
  if node1 ∈ net.places ∧ node2 ∉ net.transitions then none
  else if node1 ∈ net.transitions ∧ node2 ∉ net.places then none
  else
    let newEdges :=
      match alookup net.edges node1 with
      | some inner => dset net.edges node1 (dset inner node2 weight)
      | none => net.edges ++ [(node1, [(node2, weight)])]
    some { net with edges := newEdges }

/-- The list `inputs` of `execute_transition`, paired with the edge
weight that the body later reads back from `self.edges[input_place][transition]`:
all `(place, weight)` with `self.edges[place].get(transition)` present,
in edge-table order. -/
def inputsOf (net : PetriNet) (t : String) : List (String × Int) :=
  net.edges.filterMap (fun pe => (alookup pe.2 t).map (fun w => (pe.1, w)))

/-- The first loop of `execute_transition`: for each input place look up
its count (`none` = `KeyError`) and compare with the edge weight;
`some false` models the early `return place_markings`. -/
def checkEnabled (m : Marking) : List (String × Int) → Option Bool
  | [] => some true
  | (p, w) :: rest =>
    match alookup m p with
    | none => none
    | some c => if c < w then some false else checkEnabled m rest

/-- The second loop of `execute_transition`: for each input place,
subtract the input edge weight and add the output edge weight to the
output place (`none` = `KeyError` on a missing key). -/
def consumeProduce (out : String) (wout : Int) :
    Marking → List (String × Int) → Option Marking
  | m, [] => some m
  | m, (p, w) :: rest =>
    match dmodify m p (fun c => c - w) with
    | none => none
    | some m1 =>
      match dmodify m1 out (fun c => c + wout) with
      | none => none
      | some m2 => consumeProduce out wout m2 rest

/-- `PetriNet.execute_transition`: copy the marking, collect the inputs,
return the original marking unchanged if some input place lacks tokens,
otherwise take the first key of `self.edges[transition]` as the output
place and run the consume/produce loop.  `none` models a raised
exception (`KeyError` / `StopIteration`). -/
def execute_transition (net : PetriNet) (t : String) (m : Marking) : Option Marking :=
  match checkEnabled m (inputsOf net t) with
  | none => none
  | some false => some m
  | some true =>
    match alookup net.edges t with
    | none => none
    | some outs =>
      match outs with
      | [] => none
      | (outPlace, wout) :: _ => consumeProduce outPlace wout m (inputsOf net t)

/-- `PetriNet.enabled_edges`: for each `(place, marking)` item with a
nonzero count and an entry in the edge table, append every destination
whose weight is covered and not yet collected. -/
def enabled_edges (net : PetriNet) (m : Marking) : List String :=
  m.foldl (fun (acc : List String) (pc : String × Int) =>
    if pc.2 ≠ 0 then
      match alookup net.edges pc.1 with
      | none => acc
      | some es => es.foldl (fun (acc2 : List String) (dw : String × Int) =>
          if pc.2 ≥ dw.2 ∧ dw.1 ∉ acc2 then acc2 ++ [dw.1] else acc2) acc
    else acc) []

/-- The enabling rule as `execute_transition` itself checks it: every
input edge of `t` finds its place in `m` with at least the edge weight.
This is the universal rule the spec states in section 4.1. -/
def enabledB (net : PetriNet) (t : String) (m : Marking) : Bool :=
  (inputsOf net t).all (fun pw =>
    match alookup m pw.1 with
    | some c => decide (pw.2 ≤ c)
    | none => false)

/-- The `ReachabilityGraph` class: a node set and the edge table
`marking → {transition → successor marking}` (markings stand for the
Python item-tuples). -/
structure ReachabilityGraph where
  nodes : List Marking
  edges : List (Marking × List (String × Marking))
deriving DecidableEq

/-- Lookup in a marking-keyed dict (same first-match rule as `alookup`). -/
def glookup {β : Type} (d : List (Marking × β)) (k : Marking) : Option β :=
  match d with
  | [] => none
  | (k', v) :: rest => if k' = k then some v else glookup rest k

/-- `hamming_distance`: iterate the keys of `marking1`, look each up in
both markings (`none` = `KeyError`) and count disagreements. -/
def hamming_distance (m1 m2 : Marking) : Option Nat :=
  m1.foldlM (fun (d : Nat) (pc : String × Int) =>
    match alookup m1 pc.1, alookup m2 pc.1 with
    | some c1, some c2 => some (if c1 ≠ c2 then d + 1 else d)
    | _, _ => none) 0

/-- The running best of `ant_colony_optimization`: `best_path`,
`best_path_length` and `best_marking`. -/
structure BestR where
  path : List String
  len : Nat
  marking : Marking
deriving DecidableEq

/-- The best-path bookkeeping executed after each rollout in
`ant_colony_optimization` (the `if not best_path` branch followed by the
comparison `hamming < hamming or (path and len < best_path_length)`);
`none` initial best models `best_path = None`, outer `none` a raised
`KeyError` from `hamming_distance`. -/
def update_best (desired : Marking) (best : Option BestR)
    (antPath : List String) (antMarking : Marking) : Option BestR :=
  let b1 : BestR :=
    match best with
    | none => ⟨antPath, antPath.length, antMarking⟩
    | some b => if b.path = [] then ⟨antPath, antPath.length, antMarking⟩ else b
  match hamming_distance antMarking desired, hamming_distance b1.marking desired with
  | some d1, some d2 =>
    some (if d1 < d2 ∨ (antPath ≠ [] ∧ antPath.length < b1.len) then
      ⟨antPath, antPath.length, antMarking⟩ else b1)
  | _, _ => none

/-- The denominator of `calculate_transition_probabilities`: the sum of
`weight ** alpha` over the WHOLE pheromone table. -/
def totalPheromone (pher : List (String × ℚ)) (alpha : Nat) : ℚ :=
  pher.foldl (fun s tw => s + tw.2 ^ alpha) 0

/-- The dict-building loop of `calculate_transition_probabilities`
(`none` = `KeyError` when an enabled transition is missing from the
pheromone table). -/
def probsGo (pher : List (String × ℚ)) (alpha : Nat) (total : ℚ) :
    List String → List (String × ℚ) → Option (List (String × ℚ))
  | [], acc => some acc
  | t :: rest, acc =>
    match alookup pher t with
    | none => none
    | some w => probsGo pher alpha total rest (dset acc t (w ^ alpha / total))

/-- `calculate_transition_probabilities`: each enabled transition gets
`pheromone[t] ** alpha / total` where `total` sums over the whole
pheromone table; the `beta` parameter is accepted and ignored, as in the
source. -/
def calculate_transition_probabilities (enabled : List String)
    (pher : List (String × ℚ)) (alpha : Nat) (_beta : ℚ) :
    Option (List (String × ℚ)) :=
  probsGo pher alpha (totalPheromone pher alpha) enabled []

/-- The cumulative-probability scan of `select_transition`. -/
def selectGo (randomValue : ℚ) : List (String × ℚ) → ℚ → Option String
  | [], _ => none
  | (t, p) :: rest, cum =>
    if randomValue ≤ cum + p then some t else selectGo randomValue rest (cum + p)

/-- `select_transition`: roulette selection driven by one drawn random
value; returns `none` when the cumulative probability never reaches it. -/
def select_transition (probs : List (String × ℚ)) (randomValue : ℚ) : Option String :=
  selectGo randomValue probs 0

/-- The `Ant` object: current marking and accumulated path. -/
structure AntState where
  current : Marking
  path : List String
deriving DecidableEq

/-- Outcome of running a Python loop: normal value, raised exception, or
the supplied stream of random draws ran out (the Python loop would keep
going). -/
inductive PyResult (α : Type) where
  | ok (a : α)
  | raised
  | fuelOut
deriving DecidableEq

/-- `construct_path`: the rollout loop.  Each iteration looks up the
edge dict of the current marking (a plain `[]`-indexing — `none` entry
means a raised `KeyError`), computes probabilities, consumes one random
draw for the roulette, and either advances, breaks (`ok` with the
partial path), or raises. -/
def construct_path (g : ReachabilityGraph) (desired : Marking)
    (pher : List (String × ℚ)) (alpha : Nat) :
    List ℚ → AntState → PyResult AntState
  | randoms, ant =>
    if ant.current = desired then .ok ant
    else
      match glookup g.edges ant.current with
      | none => .raised
      | some enabledDict =>
        match randoms with
        | [] => .fuelOut
        | r :: rest =>
          match calculate_transition_probabilities (enabledDict.map Prod.fst) pher alpha 2 with
          | none => .raised
          | some probs =>
            match select_transition probs r with
            | none => .ok ant
            | some t =>
              match alookup enabledDict t with
              | none => .raised
              | some succ => construct_path g desired pher alpha rest ⟨succ, ant.path ++ [t]⟩

/-- The evaporation loop of `update_pheromone`. -/
def evaporate (pher : List (String × ℚ)) (rho : ℚ) : List (String × ℚ) :=
  pher.map (fun tw => (tw.1, tw.2 * (1 - rho)))

/-- `pheromone[t] += amt` guarded by `if t in pheromone`: add to the
first occurrence, leave the table unchanged when the key is absent. -/
def dadd (ph : List (String × ℚ)) (t : String) (amt : ℚ) : List (String × ℚ) :=
  match ph with
  | [] => []
  | (k, w) :: rest => if k = t then (k, w + amt) :: rest else (k, w) :: dadd rest t amt

/-- The deposit loop for one path: `for i in range(len(path) - 1)`
deposits `1/len(path)` on `path[i]` — the LAST element is skipped. -/
def depositPath (ph : List (String × ℚ)) (path : List String) : List (String × ℚ) :=
  (path.take (path.length - 1)).foldl
    (fun acc t => dadd acc t (1 / (path.length : ℚ))) ph

/-- `update_pheromone`: evaporate every entry by `(1 - rho)`, then run
the deposit loop for every rollout path of the round. -/
def update_pheromone (pher : List (String × ℚ)) (paths : List (List String))
    (rho : ℚ) : List (String × ℚ) :=
  paths.foldl depositPath (evaporate pher rho)

/-- The recursive `backtrack` of `find_paths`, with an explicit fuel
(the Python recursion terminates on any finite graph; every result for
some fuel is a result of the Python function and conversely). -/
def backtrack (g : ReachabilityGraph) (desired : Marking) :
    Nat → List String → Marking → List Marking → List (List String)
  | 0, _, _, _ => []
  | fuel + 1, path, current, visited =>
    if current = desired then [path]
    else
      ((glookup g.edges current).getD []).flatMap (fun ts =>
        if ts.2 ∈ visited then []
        else backtrack g desired fuel (path ++ [ts.1]) ts.2 (ts.2 :: visited))

/-- `find_paths`: depth-first backtracking from `start` with the start
marking pre-seeded into the path-local visited set. -/
def find_paths (g : ReachabilityGraph) (start desired : Marking) (fuel : Nat) :
    List (List String) :=
  backtrack g desired fuel [] start [start]

/-- The marking sequence a transition sequence induces by following the
graph's recorded edges from a marking (truncating at a missing edge). -/
def seqFrom (g : ReachabilityGraph) : Marking → List String → List Marking
  | m, [] => [m]
  | m, t :: ts =>
    match glookup g.edges m with
    | none => [m]
    | some es =>
      match alookup es t with
      | none => [m]
      | some m' => m :: seqFrom g m' ts

/-- Well-formedness that every graph built from Python dicts has: outer
keys distinct, and each inner transition dict has distinct keys. -/
def GraphWF (g : ReachabilityGraph) : Prop :=
  (g.edges.map Prod.fst).Nodup ∧ ∀ p ∈ g.edges, (p.2.map Prod.fst).Nodup

theorem alookup_mem {β : Type} {d : List (String × β)} {k : String} {v : β}
    (h : alookup d k = some v) : (k, v) ∈ d := by
  induction d with
  | nil => simp [alookup] at h
  | cons hd tl ih =>
    obtain ⟨k', v'⟩ := hd
    by_cases hk : k' = k
    · simp only [alookup, if_pos hk] at h
      cases h
      subst hk
      exact List.mem_cons_self _ _
    · simp only [alookup, if_neg hk] at h
      exact List.mem_cons_of_mem _ (ih h)

theorem alookup_of_mem {β : Type} {d : List (String × β)}
    (hnd : (d.map Prod.fst).Nodup) {k : String} {v : β} (hm : (k, v) ∈ d) :
    alookup d k = some v := by
  induction d with
  | nil => simp at hm
  | cons hd tl ih =>
    obtain ⟨k', v'⟩ := hd
    simp only [List.map_cons, List.nodup_cons] at hnd
    rcases List.mem_cons.mp hm with heq | hmem
    · cases heq
      simp [alookup]
    · have hk : k' ≠ k := by
        intro hkk
        subst hkk
        exact hnd.1 (List.mem_map.mpr ⟨(k', v), hmem, rfl⟩)
      simp only [alookup, if_neg hk]
      exact ih hnd.2 hmem

theorem alookup_isSome_of_mem {β : Type} {d : List (String × β)}
    {k : String} {v : β} (hm : (k, v) ∈ d) : (alookup d k).isSome := by
  induction d with
  | nil => simp at hm
  | cons hd tl ih =>
    obtain ⟨k', v'⟩ := hd
    rcases List.mem_cons.mp hm with heq | hmem
    · cases heq
      simp [alookup]
    · by_cases hk : k' = k
      · simp [alookup, hk]
      · simp only [alookup, if_neg hk]
        exact ih hmem

theorem dmodify_keys {β : Type} {d d' : List (String × β)} {k : String} {f : β → β}
    (h : dmodify d k f = some d') : d'.map Prod.fst = d.map Prod.fst := by
  induction d generalizing d' with
  | nil => simp [dmodify] at h
  | cons hd tl ih =>
    obtain ⟨k', v'⟩ := hd
    by_cases hk : k' = k
    · simp only [dmodify, if_pos hk] at h
      cases h
      simp
    · simp only [dmodify, if_neg hk, Option.map_eq_some'] at h
      obtain ⟨r, hr, hd'⟩ := h
      subst hd'
      simp [ih hr]

theorem dmodify_alookup {β : Type} {d d' : List (String × β)} {k : String} {f : β → β}
    (h : dmodify d k f = some d') (q : String) :
    alookup d' q = if k = q then (alookup d q).map f else alookup d q := by
  induction d generalizing d' with
  | nil => simp [dmodify] at h
  | cons hd tl ih =>
    obtain ⟨k', v'⟩ := hd
    by_cases hk : k' = k
    · simp only [dmodify, if_pos hk] at h
      cases h
      subst hk
      by_cases hq : k' = q
      · simp [alookup, hq]
      · simp [alookup, hq, if_neg hq]
    · simp only [dmodify, if_neg hk, Option.map_eq_some'] at h
      obtain ⟨r, hr, hd'⟩ := h
      subst hd'
      by_cases hq : k' = q
      · subst hq
        have hkq : k ≠ k' := fun hh => hk hh.symm
        simp [alookup, if_neg hkq]
      · simp only [alookup, if_neg hq]
        exact ih hr

/-- Net token change of one firing at place `q`: minus the input edge
weights whose place is `q`, plus the output weight once PER INPUT EDGE
when `q` is the output place (the source adds the output weight inside
the loop over input places). -/
def fireDelta (inputs : List (String × Int)) (out : String) (wout : Int)
    (q : String) : Int :=
  (inputs.map (fun pw => if pw.1 = q then -pw.2 else 0)).sum +
    (if out = q then (inputs.length : Int) * wout else 0)

theorem consumeProduce_keys {out : String} {wout : Int} :
    ∀ {inputs : List (String × Int)} {m m' : Marking},
      consumeProduce out wout m inputs = some m' →
      m'.map Prod.fst = m.map Prod.fst := by
  intro inputs
  induction inputs with
  | nil =>
    intro m m' h
    simp only [consumeProduce] at h
    cases h
    rfl
  | cons hd tl ih =>
    intro m m' h
    obtain ⟨p, w⟩ := hd
    simp only [consumeProduce] at h
    cases h1 : dmodify m p (fun c => c - w) with
    | none => rw [h1] at h; cases h
    | some m1 =>
      rw [h1] at h
      simp only [] at h
      cases h2 : dmodify m1 out (fun c => c + wout) with
      | none => rw [h2] at h; simp only [] at h; simp at h
      | some m2 =>
        rw [h2] at h
        simp only [] at h
        calc m'.map Prod.fst = m2.map Prod.fst := ih h
          _ = m1.map Prod.fst := dmodify_keys h2
          _ = m.map Prod.fst := dmodify_keys h1

theorem consumeProduce_alookup {out : String} {wout : Int} :
    ∀ {inputs : List (String × Int)} {m m' : Marking},
      consumeProduce out wout m inputs = some m' →
      ∀ q, alookup m' q = (alookup m q).map (fun c => c + fireDelta inputs out wout q) := by
  intro inputs
  induction inputs with
  | nil =>
    intro m m' h q
    simp only [consumeProduce] at h
    cases h
    simp only [fireDelta, List.map_nil, List.sum_nil, List.length_nil]
    cases alookup m q <;> simp
  | cons hd tl ih =>
    intro m m' h q
    obtain ⟨p, w⟩ := hd
    simp only [consumeProduce] at h
    cases h1 : dmodify m p (fun c => c - w) with
    | none => rw [h1] at h; cases h
    | some m1 =>
      rw [h1] at h
      simp only [] at h
      cases h2 : dmodify m1 out (fun c => c + wout) with
      | none => rw [h2] at h; simp only [] at h; simp at h
      | some m2 =>
        rw [h2] at h
        simp only [] at h
        have e2 := dmodify_alookup h2 q
        have e1 := dmodify_alookup h1 q
        rw [ih h q, e2, e1]
        simp only [fireDelta, List.map_cons, List.sum_cons, List.length_cons]
        by_cases hp : p = q <;> by_cases ho : out = q <;>
          cases hm : alookup m q <;>
          simp [hp, ho, hm] <;> ring

theorem checkEnabled_eq {m : Marking} :
    ∀ (inputs : List (String × Int)),
      (∀ pw ∈ inputs, (alookup m pw.1).isSome) →
      checkEnabled m inputs = some (inputs.all (fun pw =>
        match alookup m pw.1 with
        | some c => decide (pw.2 ≤ c)
        | none => false)) := by
  intro inputs
  induction inputs with
  | nil => intro _; simp [checkEnabled]
  | cons hd tl ih =>
    intro hall
    obtain ⟨p, w⟩ := hd
    have hp : (alookup m p).isSome := hall (p, w) (List.mem_cons_self _ _)
    obtain ⟨c, hc⟩ := Option.isSome_iff_exists.mp hp
    simp only [checkEnabled, hc]
    by_cases hcw : c < w
    · simp [hcw, List.all_cons, hc, not_le.mpr hcw]
    · have := ih (fun pw hpw => hall pw (List.mem_cons_of_mem _ hpw))
      simp only [this, List.all_cons, hc]
      simp [not_lt.mp hcw]

/-- When the transition is enabled and owns an output entry, the firing
result is the input marking shifted by `fireDelta`, with the same key
list. -/
theorem execute_transition_char {net : PetriNet} {t : String} {m m' : Marking}
    {out : String} {wout : Int} {outs' : List (String × Int)}
    (hin : ∀ pw ∈ inputsOf net t, (alookup m pw.1).isSome)
    (hen : enabledB net t m = true)
    (hout : alookup net.edges t = some ((out, wout) :: outs'))
    (h : execute_transition net t m = some m') :
    (∀ q, alookup m' q =
      (alookup m q).map (fun c => c + fireDelta (inputsOf net t) out wout q)) ∧
    m'.map Prod.fst = m.map Prod.fst := by
  have hce := checkEnabled_eq (inputsOf net t) hin
  unfold enabledB at hen
  rw [hen] at hce
  unfold execute_transition at h
  rw [hce, hout] at h
  simp only [] at h
  exact ⟨consumeProduce_alookup h, consumeProduce_keys h⟩

/-- Not-enabled firings return the input marking unchanged (given each
input place is present in the marking, so no `KeyError` precedes the
early return). -/
theorem execute_transition_noop {net : PetriNet} {t : String} {m : Marking}
    (hin : ∀ pw ∈ inputsOf net t, (alookup m pw.1).isSome)
    (hen : enabledB net t m = false) :
    execute_transition net t m = some m := by
  have hce := checkEnabled_eq (inputsOf net t) hin
  unfold enabledB at hen
  rw [hen] at hce
  unfold execute_transition
  rw [hce]

theorem alookup_eq_none {β : Type} {d : List (String × β)} {k : String}
    (h : k ∉ d.map Prod.fst) : alookup d k = none := by
  induction d with
  | nil => rfl
  | cons hd tl ih =>
    obtain ⟨k', v'⟩ := hd
    simp only [List.map_cons, List.mem_cons] at h
    push_neg at h
    simp only [alookup]
    rw [if_neg (Ne.symm h.1)]
    exact ih h.2

theorem inputsOf_keys_sublist (net : PetriNet) (t : String) :
    ((inputsOf net t).map Prod.fst).Sublist (net.edges.map Prod.fst) := by
  unfold inputsOf
  induction net.edges with
  | nil => simp
  | cons pe tl ih =>
    cases hpe : alookup pe.2 t with
    | none => simpa [List.filterMap_cons, hpe] using ih.cons pe.1
    | some w => simpa [List.filterMap_cons, hpe] using ih.cons₂ pe.1

theorem sum_neg_weights {l : List (String × Int)} {q : String}
    (hnd : (l.map Prod.fst).Nodup) :
    (l.map (fun pw => if pw.1 = q then -pw.2 else 0)).sum =
      -((alookup l q).getD 0) := by
  induction l with
  | nil => simp [alookup]
  | cons hd tl ih =>
    obtain ⟨p, w⟩ := hd
    simp only [List.map_cons, List.nodup_cons] at hnd
    by_cases hp : p = q
    · subst hp
      have hnone : alookup tl p = none := by
        apply alookup_eq_none
        intro hmem
        exact hnd.1 hmem
      have hzero : (tl.map (fun pw => if pw.1 = p then -pw.2 else 0)).sum = 0 := by
        rw [ih hnd.2, hnone]
        simp
      simp [alookup, List.sum_cons, hzero]
    · simp only [List.map_cons, List.sum_cons, if_neg hp]
      rw [ih hnd.2]
      simp [alookup, if_neg hp]

/-- Modelled from claim C1's words (NOT from the source, for
comparison): if enabled, subtract every input edge weight from its
place, then add the output edge weight to the output place exactly once
in total. -/
def claimed_fire_once (net : PetriNet) (t : String) (m : Marking) : Option Marking :=
  if enabledB net t m then
    match alookup net.edges t with
    | some ((out, wout) :: _) =>
      match (inputsOf net t).foldlM
          (fun mm pw => dmodify mm pw.1 (fun c => c - pw.2)) m with
      | some m1 => dmodify m1 out (fun c => c + wout)
      | none => none
    | _ => none
  else some m

/-- The two-input scenario of `test_execute_transition`: `P1 -(2)-> T1`,
`P3 -(1)-> T1`, `T1 -(1)-> P2`. -/
def netC1 : PetriNet :=
  ⟨["P1", "P2", "P3"], ["T1"],
    [("P1", [("T1", 2)]), ("P3", [("T1", 1)]), ("T1", [("P2", 1)])]⟩

def mC1 : Marking := [("P1", 2), ("P2", 1), ("P3", 1)]

/-- C1: refuted.  With two input places the source adds the output
weight twice (`P2` ends at `3`), not once in total as the claim states
(`P2` would end at `2`); the code's own test asserts the `3`. -/
theorem fire_output_once_counterexample :
    execute_transition netC1 "T1" mC1 = some [("P1", 0), ("P2", 3), ("P3", 0)] ∧
    claimed_fire_once netC1 "T1" mC1 = some [("P1", 0), ("P2", 2), ("P3", 0)] ∧
    execute_transition netC1 "T1" mC1 ≠ claimed_fire_once netC1 "T1" mC1 := by
  refine ⟨by decide, by decide, by decide⟩

/-- C1 (amended): for an enabled transition the firing subtracts each
input edge weight from its place and adds the output edge weight to the
output place once PER INPUT EDGE (`fireDelta` adds
`inputs.length * wout` at the output place). -/
theorem fire_output_once_per_input (net : PetriNet) (t : String) (m m' : Marking)
    (out : String) (wout : Int) (outs' : List (String × Int))
    (hin : ∀ pw ∈ inputsOf net t, (alookup m pw.1).isSome)
    (hen : enabledB net t m = true)
    (hout : alookup net.edges t = some ((out, wout) :: outs'))
    (h : execute_transition net t m = some m') :
    ∀ q, alookup m' q =
      (alookup m q).map (fun c => c + fireDelta (inputsOf net t) out wout q) :=
  (execute_transition_char hin hen hout h).1

theorem fire_output_once_per_input_witness :
    enabledB netC1 "T1" mC1 = true ∧
    alookup [("P1", 0), ("P2", 3), ("P3", 0)] "P2" =
      (alookup mC1 "P2").map
        (fun c => c + fireDelta (inputsOf netC1 "T1") "P2" 1 "P2") :=
  ⟨by decide,
    fire_output_once_per_input netC1 "T1" mC1 [("P1", 0), ("P2", 3), ("P3", 0)]
      "P2" 1 [] (by decide) (by decide) (by decide) (by decide) "P2"⟩

/-- C10: firing is a pure function of the input marking (the source
copies the dict before mutating); the returned marking has exactly the
key list of the input, and every place that is neither an input place
nor the output place of `t` keeps its token count. -/
theorem fire_frame (net : PetriNet) (t : String) (m m' : Marking)
    (h : execute_transition net t m = some m') :
    m'.map Prod.fst = m.map Prod.fst ∧
    ∀ q, (∀ w, (q, w) ∉ inputsOf net t) →
      (∀ outs, alookup net.edges t = some outs →
        outs.head?.map Prod.fst ≠ some q) →
      alookup m' q = alookup m q := by
  unfold execute_transition at h
  cases hce : checkEnabled m (inputsOf net t) with
  | none => rw [hce] at h; simp at h
  | some b =>
    rw [hce] at h
    cases b with
    | false =>
      simp only [] at h
      cases h
      exact ⟨rfl, fun q _ _ => rfl⟩
    | true =>
      simp only [] at h
      cases houts : alookup net.edges t with
      | none => rw [houts] at h; simp at h
      | some outs =>
        rw [houts] at h
        cases outs with
        | nil => simp at h
        | cons ow rest =>
          obtain ⟨out, wout⟩ := ow
          simp only [] at h
          refine ⟨consumeProduce_keys h, fun q hqin hqout => ?_⟩
          rw [consumeProduce_alookup h q]
          have hsum : ((inputsOf net t).map
              (fun pw => if pw.1 = q then -pw.2 else 0)).sum = 0 := by
            apply List.sum_eq_zero
            intro x hx
            obtain ⟨pw, hpw, hxe⟩ := List.mem_map.mp hx
            by_cases hh : pw.1 = q
            · exact absurd (show (q, pw.2) ∈ inputsOf net t by
                rw [← hh]; exact hpw) (hqin pw.2)
            · rw [← hxe]; simp [hh]
          have hne : out ≠ q := by
            intro hh
            exact hqout _ rfl (by simp [hh])
          have hdelta : fireDelta (inputsOf net t) out wout q = 0 := by
            unfold fireDelta
            simp [hsum, hne]
          rw [hdelta]
          cases alookup m q <;> simp

def netC10 : PetriNet :=
  ⟨["P1", "P2", "P3"], ["T1"], [("P1", [("T1", 2)]), ("T1", [("P2", 1)])]⟩

def mC10 : Marking := [("P1", 2), ("P2", 1), ("P3", 0)]

theorem fire_frame_witness :
    execute_transition netC10 "T1" mC10 = some [("P1", 0), ("P2", 2), ("P3", 0)] ∧
    ([("P1", 0), ("P2", 2), ("P3", 0)] : Marking).map Prod.fst = mC10.map Prod.fst ∧
    alookup [("P1", 0), ("P2", 2), ("P3", 0)] "P3" = alookup mC10 "P3" := by
  refine ⟨by decide, ?_⟩
  have hf := fire_frame netC10 "T1" mC10 [("P1", 0), ("P2", 2), ("P3", 0)] (by decide)
  refine ⟨hf.1, hf.2 "P3" ?_ ?_⟩
  · intro w hw
    rw [show inputsOf netC10 "T1" = [("P1", 2)] by decide] at hw
    simp only [List.mem_singleton, Prod.mk.injEq] at hw
    exact absurd hw.1 (by decide)
  · intro outs houts
    have hx : alookup netC10.edges "T1" = some [("P2", 1)] := by decide
    rw [houts] at hx
    cases Option.some.inj hx
    decide

/-- C3: under the net invariants (positive edge weights, dict keys
distinct) and a non-negative marking covering the input places, a firing
that returns never produces a negative count, and a not-enabled firing
returns the input marking unchanged without raising. -/
theorem fire_safe (net : PetriNet) (t : String) (m : Marking)
    (hkeys : (net.edges.map Prod.fst).Nodup)
    (hpos : ∀ pe ∈ net.edges, ∀ e ∈ pe.2, 0 < e.2)
    (hm0 : ∀ pc ∈ m, 0 ≤ pc.2)
    (hmnd : (m.map Prod.fst).Nodup)
    (hin : ∀ pw ∈ inputsOf net t, (alookup m pw.1).isSome) :
    (∀ m', execute_transition net t m = some m' → ∀ pc ∈ m', 0 ≤ pc.2) ∧
    (enabledB net t m = false → execute_transition net t m = some m) := by
  constructor
  · intro m' h pc hpc
    cases hen : enabledB net t m with
    | false =>
      rw [execute_transition_noop hin hen] at h
      cases h
      exact hm0 pc hpc
    | true =>
      cases houts : alookup net.edges t with
      | none =>
        have hce := checkEnabled_eq (inputsOf net t) hin
        unfold enabledB at hen
        rw [hen] at hce
        unfold execute_transition at h
        rw [hce, houts] at h
        simp at h
      | some outs =>
        cases outs with
        | nil =>
          have hce := checkEnabled_eq (inputsOf net t) hin
          unfold enabledB at hen
          rw [hen] at hce
          unfold execute_transition at h
          rw [hce, houts] at h
          simp at h
        | cons ow rest =>
          obtain ⟨out, wout⟩ := ow
          have hchar := execute_transition_char hin hen houts h
          obtain ⟨q, c⟩ := pc
          have hql : alookup m' q = some c :=
            alookup_of_mem (by rw [hchar.2]; exact hmnd) hpc
          rw [hchar.1 q] at hql
          cases hmq : alookup m q with
          | none => rw [hmq] at hql; simp at hql
          | some c0 =>
            rw [hmq] at hql
            simp only [Option.map_some'] at hql
            have hc : c = c0 + fireDelta (inputsOf net t) out wout q :=
              (Option.some.inj hql).symm
            have hc0 : (0 : Int) ≤ c0 := hm0 (q, c0) (alookup_mem hmq)
            have hind : ((inputsOf net t).map Prod.fst).Nodup :=
              (inputsOf_keys_sublist net t).nodup hkeys
            have hwout : 0 < wout := by
              have hmem : (t, (out, wout) :: rest) ∈ net.edges := alookup_mem houts
              exact hpos _ hmem (out, wout) (List.mem_cons_self _ _)
            have hif : (0 : Int) ≤
                (if out = q then ((inputsOf net t).length : Int) * wout else 0) := by
              split
              · exact mul_nonneg (by positivity) hwout.le
              · exact le_refl 0
            rw [hc]
            unfold fireDelta
            rw [sum_neg_weights hind]
            cases hil : alookup (inputsOf net t) q with
            | none => simp only [Option.getD_none, neg_zero]; omega
            | some w =>
              have hiw : (q, w) ∈ inputsOf net t := alookup_mem hil
              have hwc : w ≤ c0 := by
                have hq := List.all_eq_true.mp hen (q, w) hiw
                rw [hmq] at hq
                exact of_decide_eq_true hq
              simp only [Option.getD_some]
              omega
  · intro hen
    exact execute_transition_noop hin hen

def netC3 : PetriNet :=
  ⟨["P1", "P2"], ["T1"], [("P1", [("T1", 2)]), ("T1", [("P2", 1)])]⟩

def mC3 : Marking := [("P1", 1), ("P2", 0)]

theorem fire_safe_witness :
    enabledB netC3 "T1" mC3 = false ∧
    execute_transition netC3 "T1" mC3 = some mC3 :=
  ⟨by decide,
    (fire_safe netC3 "T1" mC3 (by decide) (by decide) (by decide) (by decide)
      (by decide)).2 (by decide)⟩

theorem enabled_inner_mem (c : Int) (t : String) :
    ∀ (es : List (String × Int)) (acc : List String),
      (t ∈ es.foldl (fun (acc2 : List String) (dw : String × Int) =>
        if c ≥ dw.2 ∧ dw.1 ∉ acc2 then acc2 ++ [dw.1] else acc2) acc) ↔
      (t ∈ acc ∨ ∃ w, (t, w) ∈ es ∧ w ≤ c) := by
  intro es
  induction es with
  | nil => intro acc; simp
  | cons dw tl ih =>
    intro acc
    obtain ⟨d, w'⟩ := dw
    simp only [List.foldl_cons]
    rw [ih]
    have hacc : (t ∈ if c ≥ w' ∧ d ∉ acc then acc ++ [d] else acc) ↔
        (t ∈ acc ∨ (t = d ∧ w' ≤ c)) := by
      split
      case isTrue hcond =>
        simp only [List.mem_append, List.mem_singleton]
        constructor
        · rintro (h | h)
          · exact Or.inl h
          · exact Or.inr ⟨h, hcond.1⟩
        · rintro (h | h)
          · exact Or.inl h
          · exact Or.inr h.1
      case isFalse hcond =>
        push_neg at hcond
        constructor
        · exact Or.inl
        · rintro (h | ⟨ht, hw⟩)
          · exact h
          · subst ht
            exact hcond hw
    rw [hacc]
    constructor
    · rintro ((h | ⟨ht, hw⟩) | ⟨w, hmem, hw⟩)
      · exact Or.inl h
      · subst ht
        exact Or.inr ⟨w', List.mem_cons_self _ _, hw⟩
      · exact Or.inr ⟨w, List.mem_cons_of_mem _ hmem, hw⟩
    · rintro (h | ⟨w, hmem, hw⟩)
      · exact Or.inl (Or.inl h)
      · rcases List.mem_cons.mp hmem with heq | hmem'
        · obtain ⟨h1, h2⟩ := Prod.mk.injEq .. ▸ heq
          exact Or.inl (Or.inr ⟨h1, h2 ▸ hw⟩)
        · exact Or.inr ⟨w, hmem', hw⟩

theorem enabled_outer_mem (net : PetriNet) (t : String) :
    ∀ (m : Marking) (acc : List String),
      (t ∈ m.foldl (fun (acc : List String) (pc : String × Int) =>
        if pc.2 ≠ 0 then
          match alookup net.edges pc.1 with
          | none => acc
          | some es => es.foldl (fun (acc2 : List String) (dw : String × Int) =>
              if pc.2 ≥ dw.2 ∧ dw.1 ∉ acc2 then acc2 ++ [dw.1] else acc2) acc
        else acc) acc) ↔
      (t ∈ acc ∨ ∃ p c, (p, c) ∈ m ∧ c ≠ 0 ∧
        ∃ es, alookup net.edges p = some es ∧ ∃ w, (t, w) ∈ es ∧ w ≤ c) := by
  intro m
  induction m with
  | nil => intro acc; simp
  | cons pc tl ih =>
    intro acc
    obtain ⟨p, c⟩ := pc
    simp only [List.foldl_cons]
    rw [ih]
    by_cases hc : c ≠ 0
    · rw [if_pos hc]
      cases hes : alookup net.edges p with
      | none =>
        simp only []
        constructor
        · rintro (h | ⟨p', c', hm', rest⟩)
          · exact Or.inl h
          · exact Or.inr ⟨p', c', List.mem_cons_of_mem _ hm', rest⟩
        · rintro (h | ⟨p', c', hm', hc', es, hes', rest⟩)
          · exact Or.inl h
          · rcases List.mem_cons.mp hm' with heq | hm''
            · obtain ⟨h1, h2⟩ := Prod.mk.injEq .. ▸ heq
              subst h1
              rw [hes] at hes'
              cases hes'
            · exact Or.inr ⟨p', c', hm'', hc', es, hes', rest⟩
      | some es =>
        simp only []
        rw [enabled_inner_mem]
        constructor
        · rintro ((h | ⟨w, hmem, hw⟩) | ⟨p', c', hm', rest⟩)
          · exact Or.inl h
          · exact Or.inr ⟨p, c, List.mem_cons_self _ _, hc, es, hes, w, hmem, hw⟩
          · exact Or.inr ⟨p', c', List.mem_cons_of_mem _ hm', rest⟩
        · rintro (h | ⟨p', c', hm', hc', es', hes', w, hmem, hw⟩)
          · exact Or.inl (Or.inl h)
          · rcases List.mem_cons.mp hm' with heq | hm''
            · obtain ⟨h1, h2⟩ := Prod.mk.injEq .. ▸ heq
              subst h1
              subst h2
              rw [hes] at hes'
              cases hes'
              exact Or.inl (Or.inr ⟨w, hmem, hw⟩)
            · exact Or.inr ⟨p', c', hm'', hc', es', hes', w, hmem, hw⟩
    · rw [if_neg hc]
      push_neg at hc
      subst hc
      constructor
      · rintro (h | ⟨p', c', hm', rest⟩)
        · exact Or.inl h
        · exact Or.inr ⟨p', c', List.mem_cons_of_mem _ hm', rest⟩
      · rintro (h | ⟨p', c', hm', hc', rest⟩)
        · exact Or.inl h
        · rcases List.mem_cons.mp hm' with heq | hm''
          · obtain ⟨h1, h2⟩ := Prod.mk.injEq .. ▸ heq
            exact absurd h2 hc'
          · exact Or.inr ⟨p', c', hm'', hc', rest⟩

/-- C2 (amended): `enabled_edges` reports `t` exactly when SOME item
`(p, c)` of the marking has `c ≠ 0`, an edge entry `(t, w)` under `p`,
and `c ≥ w` — an existential per-place test, not the claim's universal
"every input edge satisfied" rule. -/
theorem enabled_edges_mem_iff (net : PetriNet) (m : Marking) (t : String) :
    t ∈ enabled_edges net m ↔
    ∃ p c, (p, c) ∈ m ∧ c ≠ 0 ∧
      ∃ es, alookup net.edges p = some es ∧ ∃ w, (t, w) ∈ es ∧ w ≤ c := by
  unfold enabled_edges
  rw [enabled_outer_mem]
  simp

/-- The two-input transition `T` with `P1 -(2)-> T`, `P2 -(1)-> T`. -/
def netC2 : PetriNet :=
  ⟨["P1", "P2"], ["T"], [("P1", [("T", 2)]), ("P2", [("T", 1)])]⟩

def mC2 : Marking := [("P1", 0), ("P2", 1)]

/-- C2: refuted.  With `P1 = 0 < 2` the input edge from `P1` is
unsatisfied, so under the claim's universal rule `T` is not enabled
(`enabledB` is false), yet `enabled_edges` reports it because the edge
from `P2` alone is satisfied. -/
theorem enabled_edges_counterexample :
    enabled_edges netC2 mC2 = ["T"] ∧ enabledB netC2 "T" mC2 = false := by
  refine ⟨by decide, by decide⟩

/-- C8 (amended): `add_edge` raises exactly when the source is a
declared place and the destination is not a declared transition, or the
source is a declared transition and the destination is not a declared
place; an edge whose source is undeclared passes both checks and is
recorded silently. -/
theorem add_edge_error_iff (net : PetriNet) (n1 n2 : String) (w : Int) :
    add_edge net n1 n2 w = none ↔
    ((n1 ∈ net.places ∧ n2 ∉ net.transitions) ∨
     (n1 ∈ net.transitions ∧ n2 ∉ net.places)) := by
  unfold add_edge
  split
  case isTrue h => simp [h]
  case isFalse h =>
    split
    case isTrue h2 => simp [h, h2]
    case isFalse h2 => simp [h, h2]

def netC8 : PetriNet := ⟨[], [], []⟩

/-- C8: refuted.  An edge between two completely undeclared nodes is
recorded silently — neither `in self.places` test fires, so no
`ValueError` is raised. -/
theorem add_edge_undeclared_counterexample :
    add_edge netC8 "A" "B" 1 = some ⟨[], [], [("A", [("B", 1)])]⟩ ∧
    "A" ∉ netC8.places ∧ "A" ∉ netC8.transitions ∧
    "B" ∉ netC8.places ∧ "B" ∉ netC8.transitions := by
  refine ⟨by decide, by decide, by decide, by decide, by decide⟩

theorem dset_append {β : Type} {d : List (String × β)} {k : String}
    (h : k ∉ d.map Prod.fst) (v : β) : dset d k v = d ++ [(k, v)] := by
  induction d with
  | nil => rfl
  | cons hd tl ih =>
    obtain ⟨k', v'⟩ := hd
    simp only [List.map_cons, List.mem_cons] at h
    push_neg at h
    simp only [dset]
    rw [if_neg (Ne.symm h.1)]
    rw [ih h.2]
    simp

theorem probsGo_spec (pher : List (String × ℚ)) (alpha : Nat) (total : ℚ) :
    ∀ (enabled : List String) (acc : List (String × ℚ)),
      enabled.Nodup →
      (∀ t ∈ enabled, (alookup pher t).isSome) →
      (∀ t ∈ enabled, t ∉ acc.map Prod.fst) →
      probsGo pher alpha total enabled acc =
        some (acc ++ enabled.map
          (fun t => (t, ((alookup pher t).getD 0) ^ alpha / total))) := by
  intro enabled
  induction enabled with
  | nil => intro acc _ _ _; simp [probsGo]
  | cons t rest ih =>
    intro acc hnd hall hfresh
    have ht : (alookup pher t).isSome := hall t (List.mem_cons_self _ _)
    obtain ⟨w, hw⟩ := Option.isSome_iff_exists.mp ht
    simp only [probsGo, hw]
    have hset : dset acc t (w ^ alpha / total) = acc ++ [(t, w ^ alpha / total)] :=
      dset_append (hfresh t (List.mem_cons_self _ _)) _
    rw [hset]
    simp only [List.nodup_cons] at hnd
    rw [ih (acc ++ [(t, w ^ alpha / total)]) hnd.2
      (fun u hu => hall u (List.mem_cons_of_mem _ hu))
      (fun u hu => by
        intro hmem
        rw [List.map_append] at hmem
        rcases List.mem_append.mp hmem with h | h
        · exact hfresh u (List.mem_cons_of_mem _ hu) h
        · have hut : u = t := by simpa using h
          exact hnd.1 (hut ▸ hu))]
    simp [hw]

/-- C4 (amended): each available transition's probability is
`pheromone[t]^alpha` divided by the sum over the WHOLE pheromone table
(`totalPheromone`), not over the available set only. -/
theorem calc_probs_whole_table (enabled : List String) (pher : List (String × ℚ))
    (alpha : Nat) (beta : ℚ) (hnd : enabled.Nodup)
    (hall : ∀ t ∈ enabled, (alookup pher t).isSome) :
    calculate_transition_probabilities enabled pher alpha beta =
      some (enabled.map
        (fun t => (t, ((alookup pher t).getD 0) ^ alpha / totalPheromone pher alpha))) := by
  unfold calculate_transition_probabilities
  rw [probsGo_spec pher alpha (totalPheromone pher alpha) enabled [] hnd hall
    (fun t _ => by simp)]
  simp

/-- Modelled from claim C4's words (NOT from the source, for
comparison): probability normalized over the available set only. -/
def claimed_available_probability (enabled : List String)
    (pher : List (String × ℚ)) (alpha : Nat) (t : String) : ℚ :=
  ((alookup pher t).getD 0) ^ alpha /
    (enabled.map (fun u => ((alookup pher u).getD 0) ^ alpha)).sum

def pherC4 : List (String × ℚ) := [("T1", 1), ("T2", 1)]

/-- C4: refuted.  With table `{T1: 1, T2: 1}` and only `T1` available,
the source assigns `T1` probability `1/2` (denominator sums the whole
table), the claim's available-set normalization would give `1`, the
available probabilities sum to `1/2 < 1`, and the roulette with draw
`3/4` returns no transition at all. -/
theorem calc_probs_counterexample :
    calculate_transition_probabilities ["T1"] pherC4 1 2 = some [("T1", 1/2)] ∧
    claimed_available_probability ["T1"] pherC4 1 "T1" = 1 ∧
    ((1 : ℚ)/2) ≠ 1 ∧
    select_transition [("T1", 1/2)] (3/4) = none := by
  refine ⟨?_, ?_, ?_, ?_⟩
  · norm_num [calculate_transition_probabilities, probsGo, pherC4, totalPheromone,
      alookup, dset]
  · norm_num [claimed_available_probability, pherC4, alookup]
  · norm_num
  · norm_num [select_transition, selectGo]

theorem calc_probs_whole_table_witness :
    calculate_transition_probabilities ["T1"] pherC4 1 2 =
      some (["T1"].map
        (fun t => (t, ((alookup pherC4 t).getD 0) ^ 1 / totalPheromone pherC4 1))) :=
  calc_probs_whole_table ["T1"] pherC4 1 2 (by decide) (by decide)

theorem dadd_alookup_self (ph : List (String × ℚ)) (t : String) (a : ℚ) :
    alookup (dadd ph t a) t = (alookup ph t).map (fun w => w + a) := by
  induction ph with
  | nil => simp [dadd, alookup]
  | cons hd tl ih =>
    obtain ⟨k, w⟩ := hd
    by_cases hk : k = t
    · simp [dadd, alookup, hk]
    · simp only [dadd, if_neg hk, alookup, if_neg hk]
      exact ih

theorem dadd_alookup_ne (ph : List (String × ℚ)) (t : String) (a : ℚ)
    {q : String} (hqt : q ≠ t) : alookup (dadd ph t a) q = alookup ph q := by
  induction ph with
  | nil => rfl
  | cons hd tl ih =>
    obtain ⟨k, w⟩ := hd
    by_cases hk : k = t
    · have hkq : k ≠ q := fun h => hqt (by rw [← h, hk])
      simp only [dadd, if_pos hk, alookup, if_neg hkq]
    · by_cases hq : k = q
      · simp [dadd, alookup, if_neg hk, if_pos hq]
      · simp only [dadd, if_neg hk, alookup, if_neg hq]
        exact ih

theorem dadd_alookup (ph : List (String × ℚ)) (t : String) (a : ℚ) (q : String) :
    alookup (dadd ph t a) q =
      if q = t then (alookup ph q).map (fun w => w + a) else alookup ph q := by
  by_cases hqt : q = t
  · rw [if_pos hqt, hqt]
    exact dadd_alookup_self ph t a
  · rw [if_neg hqt]
    exact dadd_alookup_ne ph t a hqt

theorem foldl_dadd_alookup (a : ℚ) (q : String) :
    ∀ (l : List String) (ph : List (String × ℚ)),
      alookup (l.foldl (fun acc t => dadd acc t a) ph) q =
        (alookup ph q).map (fun w => w + (l.count q : ℚ) * a) := by
  intro l
  induction l with
  | nil =>
    intro ph
    simp only [List.foldl_nil, List.count_nil]
    cases alookup ph q <;> simp
  | cons t l' ih =>
    intro ph
    simp only [List.foldl_cons]
    rw [ih, dadd_alookup]
    by_cases hq : q = t
    · rw [if_pos hq]
      subst hq
      rw [List.count_cons_self]
      cases alookup ph q with
      | none => simp
      | some w =>
        simp only [Option.map_some']
        congr 1
        push_cast
        ring
    · rw [if_neg hq]
      rw [List.count_cons_of_ne hq]

/-- Pheromone deposited on transition `t` by one rollout path: its
occurrence count among all but the last element, times `1/len`. -/
def pathDeposit (p : List String) (t : String) : ℚ :=
  ((p.take (p.length - 1)).count t : ℚ) * (1 / (p.length : ℚ))

theorem depositPath_alookup (path : List String) (ph : List (String × ℚ)) (q : String) :
    alookup (depositPath ph path) q =
      (alookup ph q).map (fun w => w + pathDeposit path q) := by
  unfold depositPath pathDeposit
  rw [foldl_dadd_alookup]

theorem foldl_depositPath_alookup (q : String) :
    ∀ (paths : List (List String)) (ph : List (String × ℚ)),
      alookup (paths.foldl depositPath ph) q =
        (alookup ph q).map (fun w => w + (paths.map (fun p => pathDeposit p q)).sum) := by
  intro paths
  induction paths with
  | nil =>
    intro ph
    simp only [List.foldl_nil, List.map_nil, List.sum_nil]
    cases alookup ph q <;> simp
  | cons p ps ih =>
    intro ph
    simp only [List.foldl_cons, List.map_cons, List.sum_cons]
    rw [ih, depositPath_alookup]
    cases alookup ph q with
    | none => simp
    | some w =>
      simp only [Option.map_some']
      congr 1
      ring

theorem evaporate_alookup (ph : List (String × ℚ)) (rho : ℚ) (q : String) :
    alookup (evaporate ph rho) q = (alookup ph q).map (fun w => w * (1 - rho)) := by
  induction ph with
  | nil => simp [evaporate, alookup]
  | cons hd tl ih =>
    obtain ⟨k, w⟩ := hd
    by_cases hq : k = q
    · simp [evaporate, alookup, hq]
    · simp only [evaporate, List.map_cons, alookup, if_neg hq]
      exact ih

/-- C6 (amended): after `update_pheromone`, transition `t` holds
`w * (1 - rho)` plus, for each rollout path, `1/len(path)` per
occurrence of `t` among the path's elements EXCEPT THE LAST (the
deposit loop runs `range(len(path) - 1)`), and deposits only touch
transitions already in the table. -/
theorem update_pheromone_skips_last (pher : List (String × ℚ))
    (paths : List (List String)) (rho : ℚ) (t : String) :
    alookup (update_pheromone pher paths rho) t =
      (alookup pher t).map (fun w => w * (1 - rho) +
        (paths.map (fun p => pathDeposit p t)).sum) := by
  unfold update_pheromone
  rw [foldl_depositPath_alookup, evaporate_alookup]
  cases alookup pher t <;> simp

/-- Modelled from claim C6's words (NOT from the source, for
comparison): deposit `1/len(path)` onto EVERY transition used in the
path, the last one included. -/
def claimed_update_pheromone (pher : List (String × ℚ))
    (paths : List (List String)) (rho : ℚ) : List (String × ℚ) :=
  paths.foldl
    (fun ph path => path.foldl
      (fun acc t => dadd acc t (1 / (path.length : ℚ))) ph)
    (evaporate pher rho)

def pherC6 : List (String × ℚ) := [("T1", 1), ("T2", 1)]

/-- C6: refuted.  For the single path `[T1, T2]` with evaporation `1/2`
the source deposits only on `T1` (`range(len - 1)` skips the last
element): `T2` ends at `1/2`, while the claim's reading (deposit on
every transition used, the last included) would leave `T2` at `1`. -/
theorem update_pheromone_counterexample :
    update_pheromone pherC6 [["T1", "T2"]] (1/2) = [("T1", 1), ("T2", 1/2)] ∧
    claimed_update_pheromone pherC6 [["T1", "T2"]] (1/2) = [("T1", 1), ("T2", 1)] ∧
    update_pheromone pherC6 [["T1", "T2"]] (1/2) ≠
      claimed_update_pheromone pherC6 [["T1", "T2"]] (1/2) := by
  have hne12 : ("T1" : String) ≠ "T2" := by decide
  have hne21 : ("T2" : String) ≠ "T1" := by decide
  have h1 : update_pheromone pherC6 [["T1", "T2"]] (1/2) = [("T1", 1), ("T2", 1/2)] := by
    norm_num [update_pheromone, depositPath, evaporate, dadd, pherC6, hne12, hne21]
  have h2 : claimed_update_pheromone pherC6 [["T1", "T2"]] (1/2) =
      [("T1", 1), ("T2", 1)] := by
    norm_num [claimed_update_pheromone, evaporate, dadd, pherC6, hne12, hne21]
  refine ⟨h1, h2, ?_⟩
  rw [h1, h2]
  simp only [ne_eq, List.cons.injEq, Prod.mk.injEq]
  norm_num

/-- C7 (amended): the best-path update is a DISJUNCTION — a rollout
replaces the current best whenever its Hamming distance is strictly
smaller OR its path is nonempty and strictly shorter; in particular a
strictly shorter nonempty path replaces the best regardless of Hamming
distances. -/
theorem update_best_shorter_overrides (desired : Marking) (b : BestR)
    (p : List String) (m : Marking) (d1 d2 : Nat)
    (h1 : hamming_distance m desired = some d1)
    (h2 : hamming_distance b.marking desired = some d2)
    (hne : p ≠ [])
    (hlen : p.length < b.len)
    (hbp : b.path ≠ []) :
    update_best desired (some b) p m = some ⟨p, p.length, m⟩ := by
  unfold update_best
  simp only [if_neg hbp]
  rw [h1, h2]
  simp only []
  rw [if_pos (Or.inr ⟨hne, hlen⟩)]

def desiredC7 : Marking := [("P", 1)]

def bestC7 : BestR := ⟨["T1", "T2"], 2, [("P", 1)]⟩

/-- C7: refuted.  The current best has Hamming distance 0 to the
desired marking; a new rollout with strictly larger distance 1 but a
shorter path still replaces it, because the source's acceptance test is
`hamming < hamming OR (path AND len < best_len)`, not a lexicographic
comparison. -/
theorem update_best_counterexample :
    hamming_distance [("P", 0)] desiredC7 = some 1 ∧
    hamming_distance bestC7.marking desiredC7 = some 0 ∧
    update_best desiredC7 (some bestC7) ["T3"] [("P", 0)] =
      some ⟨["T3"], 1, [("P", 0)]⟩ := by
  refine ⟨by decide, by decide, by decide⟩

theorem update_best_shorter_overrides_witness :
    update_best desiredC7 (some bestC7) ["T3"] [("P", 0)] =
      some ⟨["T3"], 1, [("P", 0)]⟩ :=
  update_best_shorter_overrides desiredC7 bestC7 ["T3"] [("P", 0)] 1 0
    (by decide) (by decide) (by decide) (by decide) (by decide)

/-- A start marking with no outgoing edges recorded in the graph — a
dead end. -/
def gC5 : ReachabilityGraph := ⟨[[("P1", 1)]], []⟩

def startC5 : Marking := [("P1", 1)]

def desiredC5 : Marking := [("P2", 1)]

/-- C5: the code is wrong.  A dead-end marking has no entry in the
graph's edge table, and `construct_path` reads
`reachability_graph.edges[current_marking_tuple]` with plain indexing,
so the rollout raises `KeyError` instead of halting with its partial
path, whatever random draws follow. -/
theorem construct_path_deadend_raises (rs : List ℚ) :
    construct_path gC5 desiredC5 [("T1", 1)] 1 rs ⟨startC5, []⟩ =
      PyResult.raised := by
  cases rs <;> rfl

theorem glookup_mem {β : Type} {d : List (Marking × β)} {k : Marking} {v : β}
    (h : glookup d k = some v) : (k, v) ∈ d := by
  induction d with
  | nil => simp [glookup] at h
  | cons hd tl ih =>
    obtain ⟨k', v'⟩ := hd
    by_cases hk : k' = k
    · simp only [glookup, if_pos hk] at h
      cases h
      subst hk
      exact List.mem_cons_self _ _
    · simp only [glookup, if_neg hk] at h
      exact List.mem_cons_of_mem _ (ih h)

theorem seqFrom_shape (g : ReachabilityGraph) (m : Marking) (ts : List String) :
    ∃ rest, seqFrom g m ts = m :: rest := by
  cases ts with
  | nil => exact ⟨[], rfl⟩
  | cons t ts' =>
    cases hgl : glookup g.edges m with
    | none => exact ⟨[], by simp [seqFrom, hgl]⟩
    | some es =>
      cases hlk : alookup es t with
      | none => exact ⟨[], by simp [seqFrom, hgl, hlk]⟩
      | some mv => exact ⟨seqFrom g mv ts', by simp [seqFrom, hgl, hlk]⟩

theorem backtrack_sound (g : ReachabilityGraph) (hWF : GraphWF g) (desired : Marking) :
    ∀ (fuel : Nat) (path : List String) (current : Marking) (visited : List Marking),
      current ∈ visited →
      ∀ q ∈ backtrack g desired fuel path current visited,
        ∃ ts, q = path ++ ts ∧ (seqFrom g current ts).Nodup ∧
          ∀ mm ∈ (seqFrom g current ts).tail, mm ∉ visited := by
  intro fuel
  induction fuel with
  | zero =>
    intro path current visited _ q hq
    simp [backtrack] at hq
  | succ fuel ih =>
    intro path current visited hcur q hq
    by_cases hd : current = desired
    · simp only [backtrack, if_pos hd, List.mem_singleton] at hq
      subst hq
      refine ⟨[], by simp, ?_, ?_⟩
      · simp [seqFrom]
      · simp [seqFrom]
    · simp only [backtrack, if_neg hd, List.mem_flatMap] at hq
      obtain ⟨tsp, htsp_mem, hq2⟩ := hq
      obtain ⟨t, succ⟩ := tsp
      by_cases hv : succ ∈ visited
      · rw [if_pos hv] at hq2
        simp at hq2
      · rw [if_neg hv] at hq2
        obtain ⟨ts', hq3, hnd', havoid'⟩ :=
          ih (path ++ [t]) succ (succ :: visited) (List.mem_cons_self _ _) q hq2
        cases hes : glookup g.edges current with
        | none =>
          rw [hes] at htsp_mem
          simp at htsp_mem
        | some es =>
          rw [hes] at htsp_mem
          simp only [Option.getD_some] at htsp_mem
          have hlook : alookup es t = some succ :=
            alookup_of_mem (hWF.2 (current, es) (glookup_mem hes)) htsp_mem
          have hseq : seqFrom g current (t :: ts') = current :: seqFrom g succ ts' := by
            simp [seqFrom, hes, hlook]
          refine ⟨t :: ts', ?_, ?_, ?_⟩
          · rw [hq3]
            simp
          · rw [hseq]
            refine List.nodup_cons.mpr ⟨?_, hnd'⟩
            obtain ⟨rest, hrest⟩ := seqFrom_shape g succ ts'
            rw [hrest]
            intro hmem
            rcases List.mem_cons.mp hmem with heq | hmem'
            · exact hv (heq ▸ hcur)
            · have hnot := havoid' current (by rw [hrest]; exact hmem')
              exact hnot (List.mem_cons_of_mem _ hcur)
          · rw [hseq]
            intro mm hmm
            obtain ⟨rest, hrest⟩ := seqFrom_shape g succ ts'
            rw [List.tail_cons] at hmm
            rw [hrest] at hmm
            rcases List.mem_cons.mp hmm with heq | hmem'
            · subst heq
              exact hv
            · have hnot := havoid' mm (by rw [hrest]; exact hmem')
              exact fun hmmv => hnot (List.mem_cons_of_mem _ hmmv)

/-- C9: every transition sequence returned by `find_paths` induces a
marking sequence from the start with no internal revisits — no marking
occurs twice except possibly the first and last (all markings other
than the endpoints are pairwise distinct and distinct from both
endpoints). -/
theorem find_paths_no_internal_revisit (g : ReachabilityGraph)
    (start desired : Marking) (fuel : Nat) (q : List String)
    (hWF : GraphWF g) (hq : q ∈ find_paths g start desired fuel) :
    (seqFrom g start q).dropLast.Nodup ∧ (seqFrom g start q).tail.Nodup := by
  obtain ⟨ts, hts, hnd, _⟩ :=
    backtrack_sound g hWF desired fuel [] start [start]
      (List.mem_singleton.mpr rfl) q hq
  rw [List.nil_append] at hts
  subst hts
  exact ⟨(List.dropLast_sublist _).nodup hnd, (List.tail_sublist _).nodup hnd⟩

/-- The chain graph of `test_find_paths`: `P1 -T1-> P2 -T2-> P3`. -/
def gC9 : ReachabilityGraph :=
  ⟨[[("P1", 1), ("P2", 0), ("P3", 0)]],
    [([("P1", 1), ("P2", 0), ("P3", 0)],
        [("T1", [("P1", 0), ("P2", 1), ("P3", 0)])]),
     ([("P1", 0), ("P2", 1), ("P3", 0)],
        [("T2", [("P1", 0), ("P2", 0), ("P3", 1)])])]⟩

def startC9 : Marking := [("P1", 1), ("P2", 0), ("P3", 0)]

def desiredC9 : Marking := [("P1", 0), ("P2", 0), ("P3", 1)]

theorem find_paths_no_internal_revisit_witness :
    (seqFrom gC9 startC9 ["T1", "T2"]).dropLast.Nodup ∧
    (seqFrom gC9 startC9 ["T1", "T2"]).tail.Nodup :=
  find_paths_no_internal_revisit gC9 startC9 desiredC9 5 ["T1", "T2"]
    ⟨by decide, by decide⟩ (by decide)
